import Mathlib

/-!
Verification of the precept configuration engine (`precept/_configs.py`).

The development shallowly embeds the configuration subsystem: Python values
are modelled by `Val` (None, bool, int, str, list, dict-as-association-list),
Python dictionaries by insertion-ordered association lists, and the engine's
operations (`ConfigProperty.__init__`/`__set_name__`/`__get__`,
`Config.__getitem__`, `Config.read_file` with its inner `handle_prop` and
`handle_dict`, `Nestable.get_root`, the TOML comment placement logic and the
INI value rendering) by executable Lean functions translated line by line
from the source.  Floating point values are left out of the value model; the
claims under study do not involve them.
-/

namespace Precept

/-- Python values as used by the configuration engine: scalars, lists and
dictionaries.  A dictionary is an insertion-ordered association list with
unique keys, mirroring Python `dict` semantics for the operations used by
the engine. -/
inductive Val where
  | none
  | bool (b : Bool)
  | int (n : Int)
  | str (s : String)
  | list (xs : List Val)
  | dict (entries : List (String × Val))

/-- `d.get(k)` on an association list: the value at the first matching key. -/
def getK {α : Type} (es : List (String × α)) (k : String) : Option α :=
  match es with
  | [] => Option.none
  | (k', v) :: rest => if k' = k then some v else getK rest k

/-- `d[k] = v` on an association list: update in place if the key exists,
append otherwise (Python dict assignment preserves insertion order). -/
def setK {α : Type} (es : List (String × α)) (k : String) (v : α) :
    List (String × α) :=
  match es with
  | [] => [(k, v)]
  | (k', v') :: rest => if k' = k then (k, v) :: rest else (k', v') :: setK rest k v

/-- `data.update(u)`: apply every entry of `u` to `data` in order. -/
def dictUpdate (d u : List (String × Val)) : List (String × Val) :=
  u.foldl (fun acc kv => setK acc kv.1 kv.2) d

/-- `merge(initial, *to_merge)` from `_configs.py`: copy `initial`, then
`update` with each argument in turn. -/
def merge (initial : List (String × Val)) (toMerge : List (List (String × Val))) :
    List (String × Val) :=
  toMerge.foldl dictUpdate initial

/-- Python truthiness (`bool(v)`): None, False, 0, empty string, empty list
and empty dict are falsy, everything else in the value model is truthy. -/
def pyTruthy : Val → Bool
  | .none => false
  | .bool b => b
  | .int n => n != 0
  | .str s => s ≠ ""
  | .list xs => !xs.isEmpty
  | .dict es => !es.isEmpty

mutual

/-- Python `==` on the value model.  Booleans compare equal to the integers
0 and 1 as in Python; lists compare pointwise; dictionaries compare as
unordered key-value maps (keys are unique in every dict the engine builds). -/
def pyEq : Val → Val → Bool
  | .none, .none => true
  | .bool a, .bool b => a == b
  | .bool a, .int n => (if a then (1 : Int) else 0) == n
  | .int n, .bool a => n == (if a then (1 : Int) else 0)
  | .int m, .int n => m == n
  | .str s, .str t => s == t
  | .list xs, .list ys => pyEqList xs ys
  | .dict xs, .dict ys => xs.length == ys.length && pyEqDict xs ys
  | _, _ => false

def pyEqList : List Val → List Val → Bool
  | [], [] => true
  | x :: xs, y :: ys => pyEq x y && pyEqList xs ys
  | _, _ => false

def pyEqDict : List (String × Val) → List (String × Val) → Bool
  | [], _ => true
  | (k, v) :: rest, ys =>
      (match getK ys k with
       | some w => pyEq v w
       | Option.none => false) && pyEqDict rest ys

end

mutual

/-- Python `str(v)` for the value model (container elements are rendered
with `repr`, as Python does). -/
def pyStr : Val → String
  | .none => "None"
  | .bool b => if b then "True" else "False"
  | .int n => toString n
  | .str s => s
  | .list xs => "[" ++ String.intercalate ", " (pyReprList xs) ++ "]"
  | .dict es => "\x7b" ++ String.intercalate ", " (pyReprDict es) ++ "\x7d"

/-- Python `repr(v)` for the value model (strings gain quotes). -/
def pyRepr : Val → String
  | .str s => "\x27" ++ s ++ "\x27"
  | .none => "None"
  | .bool b => if b then "True" else "False"
  | .int n => toString n
  | .list xs => "[" ++ String.intercalate ", " (pyReprList xs) ++ "]"
  | .dict es => "\x7b" ++ String.intercalate ", " (pyReprDict es) ++ "\x7d"

def pyReprList : List Val → List String
  | [] => []
  | x :: xs => pyRepr x :: pyReprList xs

def pyReprDict : List (String × Val) → List String
  | [] => []
  | (k, v) :: rest => ("\x27" ++ k ++ "\x27: " ++ pyRepr v) :: pyReprDict rest

end

/-- Strip leading and trailing whitespace from a character list (Python's
`str.strip()` on the ASCII fragment). -/
def stripWhitespace (cs : List Char) : List Char :=
  ((cs.dropWhile Char.isWhitespace).reverse.dropWhile Char.isWhitespace).reverse

/-- Python `int(s)` on a string: optional surrounding whitespace, optional
sign, then decimal digits (digit-group underscores and non-ASCII digits are
not modelled; the engine never feeds them).  `Option.none` models the
`ValueError` that Python raises on any other string. -/
def pyParseInt (s : String) : Option Int :=
  let cs := stripWhitespace s.toList
  let signed : Int × List Char :=
    match cs with
    | '+' :: rest => (1, rest)
    | '-' :: rest => (-1, rest)
    | rest => (1, rest)
  if signed.2 = [] then Option.none
  else if signed.2.all Char.isDigit then
    some (signed.1 *
      (Int.ofNat (signed.2.foldl (fun acc c => acc * 10 + (c.toNat - '0'.toNat)) 0)))
  else Option.none

/-- The coercion targets (`config_type`) the engine works with: the Python
type objects `int`, `bool`, `str`, `list`, `dict` and `NoneType`. -/
inductive CType where
  | int
  | bool
  | str
  | list
  | dict
  | noneT
deriving DecidableEq

/-- `repr(t)` of a Python type object, used in the `ConfigError` message. -/
def ctypeRepr : CType → String
  | .int => "<class \x27int\x27>"
  | .bool => "<class \x27bool\x27>"
  | .str => "<class \x27str\x27>"
  | .list => "<class \x27list\x27>"
  | .dict => "<class \x27dict\x27>"
  | .noneT => "<class \x27NoneType\x27>"

/-- `type(v)` for the value model. -/
def pyTypeOf : Val → CType
  | .none => .noneT
  | .bool _ => .bool
  | .int _ => .int
  | .str _ => .str
  | .list _ => .list
  | .dict _ => .dict

/-- Python exceptions observable through the configuration engine. -/
inductive PyExc where
  | attributeError
  | valueError
  | typeError
  | configError (msg : String)

/-- Calling a type object on a value, `t(v)`, with Python semantics:
`int` accepts ints, bools and numeric strings (`ValueError` on other
strings, `TypeError` on None/containers); `bool` and `str` never fail;
`list` accepts lists, strings (list of characters) and dicts (list of
keys); `dict` accepts dicts (construction from key/value pair sequences is
not modelled — the engine never produces one).  `NoneType(v)` raises
`TypeError`. -/
def coerceType (t : CType) (v : Val) : Except PyExc Val :=
  match t with
  | .int =>
      match v with
      | .int n => .ok (.int n)
      | .bool b => .ok (.int (if b then 1 else 0))
      | .str s =>
          match pyParseInt s with
          | some n => .ok (.int n)
          | Option.none => .error .valueError
      | _ => .error .typeError
  | .bool => .ok (.bool (pyTruthy v))
  | .str => .ok (.str (pyStr v))
  | .list =>
      match v with
      | .list xs => .ok (.list xs)
      | .str s => .ok (.list (s.toList.map (fun c => Val.str (String.mk [c]))))
      | .dict es => .ok (.list (es.map (fun kv => Val.str kv.1)))
      | _ => .error .typeError
  | .dict =>
      match v with
      | .dict es => .ok (.dict es)
      | _ => .error .typeError
  | .noneT => .error .typeError

/-- Models `ruamel.yaml.round_trip_load` on the strings this engine feeds
it: either the output of `round_trip_dump` on a flat list (a block sequence
of `- item` lines) or a plain scalar (integer or string).  Only this
fragment is exercised by the engine (environment-variable lists and
INI-persisted lists). -/
def yamlScalar (s : String) : Val :=
  match pyParseInt s with
  | some n => .int n
  | Option.none => .str s

def yamlRoundTripLoad (s : String) : Val :=
  let ls := (s.splitOn "\n").filter (fun l => l ≠ "")
  if ls ≠ [] ∧ ls.all (fun l => l.startsWith "- ") then
    .list (ls.map (fun l => yamlScalar (l.drop 2)))
  else
    match ls with
    | [l] => yamlScalar l
    | _ => .str s

/-- Models `ruamel.yaml.round_trip_dump` on a flat list: a block sequence of
`- item` lines. -/
def yamlRoundTripDump (xs : List Val) : String :=
  String.join (xs.map (fun x => "- " ++ pyStr x ++ "\n"))

/-- `str.lower()` on the ASCII fragment (class names are ASCII). -/
def pyLower (s : String) : String := String.mk (s.toList.map Char.toLower)

/-- `str.upper()` on the ASCII fragment (property names are ASCII). -/
def pyUpper (s : String) : String := String.mk (s.toList.map Char.toUpper)

/-- `stringcase.snakecase`: `-`, `.` and spaces become `_`; the first
character is lowercased; every later uppercase character becomes `_` plus
its lowercase. -/
def snakecase (s : String) : String :=
  let step1 := s.toList.map (fun c => if c = '-' ∨ c = '.' ∨ c = ' ' then '_' else c)
  match step1 with
  | [] => ""
  | c :: rest =>
      String.mk (c.toLower ::
        rest.flatMap (fun d => if d.isUpper then ['_', d.toLower] else [d]))

/-- A `ConfigProperty` after `__init__` and `__set_name__` have run: the
resolved name, dotted qualified name, default, comment, coercion type,
environment binding and command-line-global binding. -/
structure PropSpec where
  name : String
  qualifiedName : String
  default : Val
  comment : Option String
  configType : Option CType
  environName : Option String
  autoGlobal : Bool
  globalName : Option String

/-- `ConfigProperty.__init__` followed by `__set_name__(owner, name)`.
`__init__` sets `config_type = config_type or (type(default) if default
else None)` — the runtime type of the default is inferred only when no
explicit type is given *and* the default is truthy.  `__set_name__` derives
`qualified_name` from the lowercased immediate owner class name (plain
`name` when the owner is a `Config` subclass), fills `environ_name` with
the uppercased name under `auto_environ`, and fills `global_name` with
`qualified_name` under `auto_global`. -/
def mkProp (dflt : Val) (comment : Option String) (configType0 : Option CType)
    (environName0 : Option String) (autoEnviron : Bool) (autoGlobal : Bool)
    (globalName0 : Option String) (ownerIsConfig : Bool) (ownerClassName : String)
    (name : String) : PropSpec :=
  let qualifiedName :=
    if ownerIsConfig then name else pyLower ownerClassName ++ "." ++ name
  { name := name
    qualifiedName := qualifiedName
    default := dflt
    comment := comment
    configType :=
      match configType0 with
      | some t => some t
      | Option.none => if pyTruthy dflt then some (pyTypeOf dflt) else Option.none
    environName :=
      match environName0 with
      | some e => some e
      | Option.none => if autoEnviron then some (pyUpper name) else Option.none
    autoGlobal := autoGlobal
    globalName :=
      match globalName0 with
      | some g => some g
      | Option.none => if autoGlobal then some qualifiedName else Option.none }

/-- The declared configuration tree, as collected by `ConfigMeta`: each
node is an ordered list of named entries, an entry being either a leaf
`ConfigProperty` or a nested `Nestable` class (mounted under the snakecase
of its class name, carrying its docstring as comment). -/
inductive Entry where
  | leaf (p : PropSpec)
  | child (className : String) (comment : Option String)
      (entries : List (String × Entry))

mutual

/-- The `default` attribute a `_NestableDescriptor` computes for a nested
class: the dict mapping each declared property name to its default,
recursively (grandchild descriptors contribute their own default dicts). -/
def entryDefault : Entry → Val
  | .leaf p => p.default
  | .child _ _ es => .dict (entriesDefault es)

def entriesDefault : List (String × Entry) → List (String × Val)
  | [] => []
  | (k, e) :: rest => (k, entryDefault e) :: entriesDefault rest

end

/-- `if self.environ_name:` — the environment binding participates only
when it is a non-empty string (Python truthiness of `environ_name`). -/
def envNameTruthy (p : PropSpec) : Bool :=
  match p.environName with
  | some s => s ≠ ""
  | Option.none => false

/-- `os.getenv` over a modelled environment. -/
def envGet (env : List (String × String)) (p : PropSpec) : Option String :=
  match p.environName with
  | some en => getK env en
  | Option.none => Option.none

/-- The `ConfigError` message raised when coercion hits a `TypeError`:
`f'Expected type {repr(self.config_type)} for {value}'`. -/
def coerceExcMsg (t : CType) (v : Val) : String :=
  "Expected type " ++ ctypeRepr t ++ " for " ++ pyStr v

/-- How a conversion failure surfaces from `ConfigProperty.__get__`: a
`TypeError` becomes a `ConfigError` naming the value and expected type,
every other exception propagates unchanged. -/
def coerceFailExc (t : CType) (v : Val) : PyExc → PyExc
  | .typeError => .configError (coerceExcMsg t v)
  | e2 => e2

/-- The coercion step at the end of `ConfigProperty.__get__` for a
non-null value and a declared `config_type`: a string destined for `list`
goes through `yaml.round_trip_load`; otherwise the type is called on the
value, with only `TypeError` converted to a `ConfigError`. -/
def coerceStep (t : CType) (v : Val) : Except PyExc Val :=
  match v, t with
  | .str s, .list => .ok (yamlRoundTripLoad s)
  | v, t =>
      match coerceType t v with
      | .ok w => .ok w
      | .error .typeError => .error (.configError (coerceExcMsg t v))
      | .error e => .error e

/-- The source-selection chain of `ConfigProperty.__get__` for a property
read through the root `Config` instance, before type coercion: the
command-line-globals map of the attached app (taken only when present and
`!=` the default), then a set environment variable, then the raw store
`_data` (falling back to the default).  `app` models
`getattr(instance, '_app', None)` and holds `app.cli.globals`. -/
def resolveValue (p : PropSpec) (app : Option (List (String × Val)))
    (env : List (String × String)) (st : List (String × Val)) : Val :=
  let v1 : Option Val :=
    match app with
    | some g =>
        if p.autoGlobal then
          match getK g p.qualifiedName with
          | some v => if pyEq v p.default then Option.none else some v
          | Option.none => Option.none
        else Option.none
    | Option.none => Option.none
  match v1 with
  | some v => v
  | Option.none =>
      let v2 : Option Val :=
        if envNameTruthy p then (envGet env p).map Val.str else Option.none
      match v2 with
      | some v => v
      | Option.none => (getK st p.name).getD p.default

/-- Full `ConfigProperty.__get__` for a root-owned property: resolve the
value through the source chain, then coerce it when both the value and the
declared `config_type` are non-null.  A string value with `config_type ==
list` is parsed with `yaml.round_trip_load` instead.  Only a `TypeError`
from the conversion is turned into a `ConfigError`; any other exception
(such as `ValueError` from `int` on a non-numeric string) propagates
unchanged. -/
def propGet (p : PropSpec) (app : Option (List (String × Val)))
    (env : List (String × String)) (st : List (String × Val)) :
    Except PyExc Val :=
  let value := resolveValue p app env st
  match p.configType with
  | Option.none => .ok value
  | some t =>
      match value with
      | .none => .ok .none
      | v => coerceStep t v

/-- A `Nestable` instance's position in the tree: the root (a `Config`,
which has no `_key` attribute) or a child node holding its parent and its
mounted `_key`. -/
inductive NodeInst where
  | root
  | child (parent : NodeInst) (key : String)

/-- The `while parent is not None` loop of `Nestable.get_root`: walk the
ancestor chain, appending each ancestor's `_key` when it has one (the root
has none), and remember the last ancestor visited. -/
def getRootLoop : NodeInst → List String → NodeInst × List String
  | .root, levels => (.root, levels)
  | .child pp k, levels => getRootLoop pp (levels ++ [k])

/-- `Nestable.get_root(current)` for a non-root instance: seed the level
list with `[current, self._key]` (just `[self._key]` when `current` is
falsy), run the ancestor walk, and return the last ancestor together with
the reversed levels.  A root instance returns itself without levels
(modelled as `Option.none`). -/
def getRoot (inst : NodeInst) (current : Option String) :
    Option (NodeInst × List String) :=
  match inst with
  | .root => Option.none
  | .child pp k =>
      let levels := match current with
        | some c => [c, k]
        | Option.none => [k]
      let r := getRootLoop pp levels
      some (r.1, r.2.reverse)

/-- The root-to-node key path of an instance, the reference value the
`get_root` walk is compared against. -/
def pathKeys : NodeInst → List String
  | .root => []
  | .child pp k => pathKeys pp ++ [k]

/-- `Config.__getitem__(k)`: fetch the class-level descriptor for `k`; for
a nested child with no entry in `_data`, deep-copy the child's default
mapping into `_data` and return the stored copy (in this pure model the
copy is the value itself); for a leaf return the stored value or the
default without touching the store.  An undeclared key raises
`AttributeError` (`getattr(type(self), k)` fails). -/
def configGetItem (schema : List (String × Entry)) (st : List (String × Val))
    (k : String) : Except PyExc (Val × List (String × Val)) :=
  match getK schema k with
  | some (.child _ _ es) =>
      match getK st k with
      | some v => .ok (v, st)
      | Option.none =>
          let d := Val.dict (entriesDefault es)
          .ok (d, setK st k d)
  | some (.leaf p) => .ok ((getK st k).getD p.default, st)
  | Option.none => .error .attributeError

/-- Non-descriptor attributes reachable by `getattr` on a `Nestable`
subclass (methods and metadata of `Nestable`, `Mapping` and `object`); a
representative set — a loaded key matching one of these names resolves to
a plain class attribute instead of a property descriptor. -/
def nestableClassAttrNames : List String :=
  ["get_root", "get_prop_paths", "get", "keys", "items", "values",
   "_children", "_props", "__doc__", "__init__", "__new__", "__class__",
   "__dict__", "__module__", "__getitem__", "__setitem__", "__len__",
   "__iter__", "__contains__", "__eq__", "__ne__", "__hash__", "__repr__",
   "__str__"]

/-- The additional attributes a `Config` subclass exposes on top of
`Nestable`. -/
def configClassAttrNames : List String :=
  ["read_dict", "read_file", "save", "config_format"] ++ nestableClassAttrNames

/-- What `getattr` finds for a key: a configuration entry or a plain class
attribute (a method or metadata object, which has neither `nested_cls` nor
`default`). -/
inductive PropRef where
  | entry (e : Entry)
  | nonProp

/-- `getattr(type(self), key, undefined)` at the top level of
`handle_dict`: a declared entry, a plain class attribute, or nothing (in
which case the key is skipped). -/
def topAttr (schema : List (String × Entry)) (key : String) : Option PropRef :=
  match getK schema key with
  | some e => some (.entry e)
  | Option.none =>
      if key ∈ configClassAttrNames then some .nonProp else Option.none

/-- `getattr(parent.nested_cls, key)` at nested levels of `handle_dict`:
only a parent that is a nested-class descriptor has a `nested_cls`
attribute (a leaf descriptor or a plain attribute raises
`AttributeError`); on the nested class, an unknown key that is not a class
attribute raises `AttributeError`. -/
def nestedAttr : PropRef → String → Except PyExc PropRef
  | .entry (.child _ _ es), key =>
      match getK es key with
      | some e => .ok (.entry e)
      | Option.none =>
          if key ∈ nestableClassAttrNames then .ok .nonProp
          else .error .attributeError
  | _, _ => .error .attributeError

/-- The per-key attribute lookup of `handle_dict`: top level uses
`getattr(type(self), key, undefined)` (`Option.none` result means the key
is skipped); nested levels use `getattr(parent.nested_cls, key)`. -/
def levelAttr (schema : List (String × Entry)) (parent : Option PropRef)
    (key : String) : Except PyExc (Option PropRef) :=
  match parent with
  | Option.none => .ok (topAttr schema key)
  | some par => (nestedAttr par key).map some

/-- `orig.get(key, {})`: dictionary lookup with an empty-dict default; a
non-dict receiver raises `AttributeError`. -/
def origGet (orig : Val) (key : String) : Except PyExc Val :=
  match orig with
  | .dict os => .ok ((getK os key).getD (.dict []))
  | _ => .error .attributeError

/-- `original.get(key, undefined)`: dictionary lookup distinguishing a
missing key; a non-dict receiver raises `AttributeError`. -/
def origGetOpt (orig : Val) (key : String) : Except PyExc (Option Val) :=
  match orig with
  | .dict os => .ok (getK os key)
  | _ => .error .attributeError

/-- `handle_prop(key, value, default, to_update, original)` from
`Config.read_file`: keep the currently stored value when it exists and
differs from the default, otherwise take the file's value. -/
def handleProp (key : String) (value : Val) (dflt : Val)
    (toUpdate : List (String × Val)) (original : Val) :
    Except PyExc (List (String × Val)) :=
  match origGetOpt original key with
  | .error e => .error e
  | .ok (some userdata) =>
      if pyEq userdata dflt then .ok (setK toUpdate key value)
      else .ok (setK toUpdate key userdata)
  | .ok Option.none => .ok (setK toUpdate key value)

/-- The default used by the non-dict branch of `handle_dict`:
`parent.default.get(key)` at nested levels (`None` when absent), and
`prop.default` at the top level (a plain class attribute has no `default`
and raises `AttributeError`). -/
def defaultFor (parent : Option PropRef) (prop : PropRef) (key : String) :
    Except PyExc Val :=
  match parent with
  | some (.entry (.child _ _ es)) =>
      .ok ((getK (entriesDefault es) key).getD .none)
  | some _ => .error .attributeError
  | Option.none =>
      match prop with
      | .entry e => .ok (entryDefault e)
      | .nonProp => .error .attributeError

/-- `handle_dict(root, parent, updatable, orig)` from `Config.read_file`:
walk the loaded mapping in order; resolve each key against the schema
(skipping unknown top-level keys); recurse into nested mappings with a
fresh updatable dict and `orig.get(key, {})`; pass other values through
`handle_prop` with the appropriate default. -/
def handleDict (schema : List (String × Entry)) (root : List (String × Val))
    (parent : Option PropRef) (updatable : List (String × Val)) (orig : Val) :
    Except PyExc (List (String × Val)) :=
  match root with
  | [] => .ok updatable
  | (key, value) :: rest =>
      match levelAttr schema parent key with
      | .error e => .error e
      | .ok Option.none => handleDict schema rest parent updatable orig
      | .ok (some prop) =>
          match value with
          | .dict inner =>
              match origGet orig key with
              | .error e => .error e
              | .ok origChild =>
                  match handleDict schema inner (some prop) [] origChild with
                  | .error e => .error e
                  | .ok sub =>
                      handleDict schema rest parent
                        (setK updatable key (.dict sub)) orig
          | _ =>
              match defaultFor parent prop key with
              | .error e => .error e
              | .ok dflt =>
                  match handleProp key value dflt updatable orig with
                  | .error e => .error e
                  | .ok upd => handleDict schema rest parent upd orig
termination_by sizeOf root
decreasing_by all_goals (simp_wf; try omega)

/-- The per-key outcome of one `handle_dict` step: `Option.none` when the
key is skipped, otherwise the value that ends up stored under the key
(built by recursion for nested mappings, chosen by `handle_prop` for
leaves). -/
def hdStep (schema : List (String × Entry)) (parent : Option PropRef)
    (key : String) (value : Val) (orig : Val) : Except PyExc (Option Val) :=
  match levelAttr schema parent key with
  | .error e => .error e
  | .ok Option.none => .ok Option.none
  | .ok (some prop) =>
      match value with
      | .dict inner =>
          match origGet orig key with
          | .error e => .error e
          | .ok origChild =>
              match handleDict schema inner (some prop) [] origChild with
              | .error e => .error e
              | .ok sub => .ok (some (.dict sub))
      | _ =>
          match defaultFor parent prop key with
          | .error e => .error e
          | .ok dflt =>
              match origGetOpt orig key with
              | .error e => .error e
              | .ok (some userdata) =>
                  if pyEq userdata dflt then .ok (some value)
                  else .ok (some userdata)
              | .ok Option.none => .ok (some value)

/-- `Config.read_file`: load the file (the loaded data is taken as input
here), run `handle_dict` against the current `_data`, and merge the result
over `_data`.  Loaded data that is not a mapping raises when iterated. -/
def readFile (schema : List (String × Entry)) (st : List (String × Val))
    (data : Val) : Except PyExc (List (String × Val)) :=
  match data with
  | .dict d =>
      match handleDict schema d Option.none [] (.dict st) with
      | .error e => .error e
      | .ok updated => .ok (merge st [updated])
  | _ => .error .attributeError

/-- `Config.read_dict`: `self._data = merge(self._data, data)`. -/
def readDict (st : List (String × Val)) (d : List (String × Val)) :
    List (String × Val) :=
  merge st [d]

/-- Navigate a value along a key path (`None` when a segment is missing or
a non-dict is hit before the end). -/
def valAtPath (v : Val) : List String → Option Val
  | [] => some v
  | k :: ks =>
      match v with
      | .dict es =>
          match getK es k with
          | some w => valAtPath w ks
          | Option.none => Option.none
      | _ => Option.none

/-- Navigate declared child nodes along a key path, returning the entry
list of the reached node. -/
def lookupNodePath (es : List (String × Entry)) : List String → Option (List (String × Entry))
  | [] => some es
  | k :: ks =>
      match getK es k with
      | some (.child _ _ ces) => lookupNodePath ces ks
      | _ => Option.none

/-- Keys are duplicate-free at every dictionary level crossed by the given
path (every dictionary a serializer can produce satisfies this). -/
def nodupAlong (es : List (String × Val)) : List String → Prop
  | [] => (es.map Prod.fst).Nodup
  | k :: ks =>
      (es.map Prod.fst).Nodup ∧
      match getK es k with
      | some (.dict inner) => nodupAlong inner ks
      | _ => True

def isDict : Val → Bool
  | .dict _ => true
  | _ => false

/-- The tail of `get_deep` after the first `Config`-level lookup: navigate
plain dicts with `.get(key, undefined)`; a missing key makes `get_deep`
report `found = False` (`Option.none` here); `.get` on a non-dict raises
`AttributeError`. -/
def deepWalk (v : Val) : List String → Except PyExc (Option Val)
  | [] => .ok (some v)
  | k :: ks =>
      match v with
      | .dict es =>
          match getK es k with
          | some w => deepWalk w ks
          | Option.none => .ok Option.none
      | _ => .error .attributeError

/-- `ConfigProperty.__get__` for a property owned by a nested `Nestable`
node, read at root-to-property path `levels` (as produced by `get_root`).
A `Nestable` instance has no `_app` attribute, so the command-line-globals
branch never fires; the environment branch is as for the root; the tree
branch runs `get_deep(root, *levels)` whose first step goes through
`Config.__getitem__` (materializing the top child's defaults into `_data`
when absent) and falls back to the property default when the path is not
found.  Returns the value together with the possibly-grown raw store. -/
def nestedPropGet (schema : List (String × Entry)) (p : PropSpec)
    (env : List (String × String)) (st : List (String × Val))
    (levels : List String) : Except PyExc (Val × List (String × Val)) :=
  let v2 : Option Val :=
    if envNameTruthy p then (envGet env p).map Val.str else Option.none
  let resolved : Except PyExc (Val × List (String × Val)) :=
    match v2 with
    | some v => .ok (v, st)
    | Option.none =>
        match levels with
        | [] => .error .attributeError
        | k0 :: ks =>
            match configGetItem schema st k0 with
            | .error e => .error e
            | .ok (v0, st1) =>
                match deepWalk v0 ks with
                | .error e => .error e
                | .ok (some v) => .ok (v, st1)
                | .ok Option.none => .ok (p.default, st1)
  match resolved with
  | .error e => .error e
  | .ok (value, st1) =>
      match p.configType with
      | Option.none => .ok (value, st1)
      | some t =>
          match value with
          | .none => .ok (.none, st1)
          | v =>
              match coerceStep t v with
              | .error e => .error e
              | .ok w => .ok (w, st1)

/-- One emitted line-level item of the TOML serializer: a full-line
comment, a blank line, or a `key = value` assignment with an optional
inline comment. -/
inductive TomlItem where
  | comment (text : String)
  | nl
  | kv (key : String) (value : Val) (inlineComment : Option String)

/-- Greedy line filling as `textwrap.wrap` with its default width of 70:
words are packed into lines while they fit (breaking of single words
longer than the width is not modelled; the engine's comments do not
contain such words). -/
def wrapFill (width : Nat) : List String → String → List String → List String
  | [], cur, acc => if cur = "" then acc else acc ++ [cur]
  | w :: ws, cur, acc =>
      if cur = "" then wrapFill width ws w acc
      else if cur.length + 1 + w.length ≤ width then
        wrapFill width ws (cur ++ " " ++ w) acc
      else wrapFill width ws w (acc ++ [cur])

def textwrapWrap (s : String) : List String :=
  wrapFill 70 ((s.splitOn " ").filter (fun w => w ≠ "")) "" []

/-- `add_comment(sec, comment)` of `TomlConfigSerializer.dump`: one comment
line per wrapped line of the stripped text. -/
def addCommentItems (c : String) : List TomlItem :=
  (textwrapWrap c.trim).map TomlItem.comment

/-- `add_value(sec, k, v)` of `TomlConfigSerializer.dump`: a `None` value
becomes a commented-out placeholder instead of an assignment. -/
def addValueItems (key : String) (v : Val) : List TomlItem :=
  match v with
  | .none => [.comment (key ++ " = # Uncomment to use")]
  | v => [.kv key v Option.none]

/-- The per-leaf emission logic of `TomlConfigSerializer.dump` (the
non-`Nestable` branch of its property loop): a comment longer than 40
characters is emitted as standalone comment lines above the key (after a
blank line); otherwise `add_value` runs first and the comment is attached
inline only when a real assignment was produced (`good`), so a `None`
value leaves a short comment unemitted. -/
def tomlEmitLeaf (key : String) (value : Val) (comment : Option String) :
    List TomlItem :=
  match comment with
  | some c =>
      if c.length > 40 then
        [TomlItem.nl] ++ addCommentItems c ++ addValueItems key value
      else
        match value with
        | .none => [.comment (key ++ " = # Uncomment to use")]
        | v => [.kv key v (some c)]
  | Option.none => addValueItems key value

/-- The value rendering of `IniConfigSerializer.dump`: lists go through
`yaml.round_trip_dump`, everything else through `str`.  `configparser`
stores and returns plain strings, so this is exactly what a later load
hands back for the leaf. -/
def iniDumpValue (v : Val) : String :=
  match v with
  | .list xs => yamlRoundTripDump xs
  | v => pyStr v

/-- A small declared schema used by the concrete witnesses: a root-level
integer `a` and a nested class `Sub` with string leaves `c` and `d`. -/
def pA : PropSpec :=
  mkProp (Val.int 10) Option.none Option.none Option.none false false
    Option.none true "SampleConfig" "a"

def pC : PropSpec :=
  mkProp (Val.str "x") Option.none Option.none Option.none false false
    Option.none false "Sub" "c"

def pD : PropSpec :=
  mkProp (Val.str "w") Option.none Option.none Option.none false false
    Option.none false "Sub" "d"

def sampleSchema : List (String × Entry) :=
  [("a", Entry.leaf pA),
   ("sub", Entry.child "Sub" Option.none [("c", Entry.leaf pC), ("d", Entry.leaf pD)])]

/-- A root-level property with default 3, an environment binding and
`auto_global`, used by the precedence witness. -/
def pGlobalW : PropSpec :=
  mkProp (Val.int 3) Option.none Option.none (some "MYVAR") false true
    Option.none true "SampleConfig" "gprop"

/-- A root-level boolean property with default `True` (so `config_type` is
inferred as `bool`), used for the INI round-trip evaluation. -/
def pFlag : PropSpec :=
  mkProp (Val.bool true) Option.none Option.none Option.none false false
    Option.none true "SampleConfig" "flag"

/-- A root-level integer property (explicit `config_type=int` via the
truthy default 5), used for the coercion-failure claims. -/
def pNum : PropSpec :=
  mkProp (Val.int 5) Option.none Option.none Option.none false false
    Option.none true "SampleConfig" "num"

/-- A property whose default 0 is falsy: `__init__` infers no
`config_type` for it. -/
def pZero : PropSpec :=
  mkProp (Val.int 0) Option.none Option.none Option.none false false
    Option.none true "SampleConfig" "zero"

/-- A one-property schema holding the boolean `flag`, for the INI
round-trip evaluation. -/
def flagSchema : List (String × Entry) := [("flag", Entry.leaf pFlag)]

/-- A node instance three levels below the root, with the keys the
metaclass derives (`snakecase` of each nested class name). -/
def inst3 : NodeInst :=
  NodeInst.child
    (NodeInst.child (NodeInst.child NodeInst.root (snakecase "Alpha"))
      (snakecase "Beta"))
    (snakecase "Gamma")

/-- The property `p` declared on the innermost class `Gamma` of the
three-level nesting. -/
def pDeep : PropSpec :=
  mkProp (Val.int 1) Option.none Option.none Option.none false false
    Option.none false "Gamma" "p"

theorem getK_setK_self {α : Type} (d : List (String × α)) (k : String) (v : α) :
    getK (setK d k v) k = some v := by
  induction d with
  | nil => simp [getK, setK]
  | cons hd tl ih =>
      obtain ⟨k', v'⟩ := hd
      by_cases h : k' = k <;> simp [getK, setK, h, ih]

theorem getK_setK_ne {α : Type} (d : List (String × α)) (k k' : String) (v : α)
    (h : k' ≠ k) : getK (setK d k v) k' = getK d k' := by
  have hk : k ≠ k' := Ne.symm h
  induction d with
  | nil => simp [getK, setK, hk]
  | cons hd tl ih =>
      obtain ⟨k0, v0⟩ := hd
      by_cases h0 : k0 = k
      · subst h0
        simp [getK, setK, hk]
      · by_cases h1 : k0 = k' <;> simp [getK, setK, h0, h1, ih, h]

theorem getK_eq_none_iff {α : Type} (d : List (String × α)) (k : String) :
    getK d k = Option.none ↔ k ∉ d.map Prod.fst := by
  induction d with
  | nil => simp [getK]
  | cons hd tl ih =>
      obtain ⟨k0, v0⟩ := hd
      by_cases h0 : k0 = k
      · subst h0
        simp [getK]
      · rw [List.map_cons]
        simp only [getK, if_neg h0]
        rw [ih]
        constructor
        · intro hnot hmem
          rcases List.mem_cons.mp hmem with h1 | h1
          · exact h0 h1.symm
          · exact hnot h1
        · intro hnot h1
          exact hnot (List.mem_cons.mpr (Or.inr h1))

theorem setK_of_getK_none {α : Type} (d : List (String × α)) (k : String) (v : α)
    (h : getK d k = Option.none) : setK d k v = d ++ [(k, v)] := by
  induction d with
  | nil => simp [setK]
  | cons hd tl ih =>
      obtain ⟨k0, v0⟩ := hd
      by_cases h0 : k0 = k
      · simp [getK, h0] at h
      · simp [getK, h0] at h
        simp [setK, h0, ih h]

theorem mapFst_setK_mem {α : Type} (d : List (String × α)) (k : String) (v : α)
    (h : k ∈ d.map Prod.fst) :
    (setK d k v).map Prod.fst = d.map Prod.fst := by
  induction d with
  | nil => simp at h
  | cons hd tl ih =>
      obtain ⟨k0, v0⟩ := hd
      by_cases h0 : k0 = k
      · simp [setK, h0]
      · have hmem : k ∈ tl.map Prod.fst := by
          rw [List.map_cons] at h
          rcases List.mem_cons.mp h with h1 | h1
          · exact absurd h1.symm h0
          · exact h1
        simp [setK, h0, ih hmem]

theorem mapFst_setK_not_mem {α : Type} (d : List (String × α)) (k : String)
    (v : α) (h : k ∉ d.map Prod.fst) :
    (setK d k v).map Prod.fst = d.map Prod.fst ++ [k] := by
  have h' : getK d k = Option.none := (getK_eq_none_iff d k).mpr h
  simp [setK_of_getK_none d k v h']

theorem nodup_setK {α : Type} (d : List (String × α)) (k : String) (v : α)
    (h : (d.map Prod.fst).Nodup) : ((setK d k v).map Prod.fst).Nodup := by
  by_cases hm : k ∈ d.map Prod.fst
  · rw [mapFst_setK_mem d k v hm]; exact h
  · rw [mapFst_setK_not_mem d k v hm]
    refine List.Nodup.append h (List.nodup_singleton k) ?_
    intro a ha hb
    rw [List.mem_singleton] at hb
    exact hm (hb ▸ ha)

theorem getK_dictUpdate_none (d u : List (String × Val)) (k : String)
    (h : getK u k = Option.none) : getK (dictUpdate d u) k = getK d k := by
  induction u generalizing d with
  | nil => simp [dictUpdate]
  | cons hd tl ih =>
      obtain ⟨k0, v0⟩ := hd
      by_cases h0 : k0 = k
      · simp [getK, h0] at h
      · simp [getK, h0] at h
        have : dictUpdate d ((k0, v0) :: tl) = dictUpdate (setK d k0 v0) tl := by
          simp [dictUpdate]
        rw [this, ih (setK d k0 v0) h, getK_setK_ne d k0 k v0 (fun h' => h0 h'.symm)]

theorem getK_dictUpdate_some (u : List (String × Val)) :
    ∀ (d : List (String × Val)) (k : String) (v : Val),
    (u.map Prod.fst).Nodup → getK u k = some v →
    getK (dictUpdate d u) k = some v := by
  induction u with
  | nil => intro d k v _ h; simp [getK] at h
  | cons hd tl ih =>
      intro d k v hn h
      obtain ⟨k0, v0⟩ := hd
      have hstep : dictUpdate d ((k0, v0) :: tl) = dictUpdate (setK d k0 v0) tl := by
        simp [dictUpdate]
      rw [List.map_cons, List.nodup_cons] at hn
      by_cases h0 : k0 = k
      · subst h0
        simp [getK] at h
        subst h
        have htl : getK tl k0 = Option.none := (getK_eq_none_iff tl k0).mpr hn.1
        rw [hstep, getK_dictUpdate_none (setK d k0 v0) tl k0 htl,
          getK_setK_self d k0 v0]
      · simp [getK, h0] at h
        rw [hstep, ih (setK d k0 v0) k v hn.2 h]

theorem entriesDefault_getK (es : List (String × Entry)) (k : String) (e : Entry)
    (h : getK es k = some e) :
    getK (entriesDefault es) k = some (entryDefault e) := by
  induction es with
  | nil => simp [getK] at h
  | cons hd tl ih =>
      obtain ⟨k0, e0⟩ := hd
      by_cases h0 : k0 = k
      · simp [getK, h0] at h
        simp [entriesDefault, getK, h0, h]
      · simp [getK, h0] at h
        simp [entriesDefault, getK, h0, ih h]

theorem handleProp_ok_shape (key : String) (value dflt : Val)
    (upd : List (String × Val)) (orig : Val) (upd' : List (String × Val))
    (h : handleProp key value dflt upd orig = .ok upd') :
    ∃ w, upd' = setK upd key w := by
  unfold handleProp at h
  unfold origGetOpt at h
  match orig with
  | .dict os =>
      simp at h
      match hk : getK os key with
      | some userdata =>
          rw [hk] at h
          by_cases hp : pyEq userdata dflt = true <;> simp [hp] at h <;>
            exact ⟨_, h.symm⟩
      | Option.none =>
          rw [hk] at h
          simp at h
          exact ⟨value, h.symm⟩
  | .none => simp at h
  | .bool b => simp at h
  | .int n => simp at h
  | .str s => simp at h
  | .list xs => simp at h

theorem handleDict_frame (schema : List (String × Entry)) :
    ∀ (root : List (String × Val)) (parent : Option PropRef)
      (upd : List (String × Val)) (orig : Val) (u : List (String × Val))
      (k : String),
    handleDict schema root parent upd orig = .ok u →
    k ∉ root.map Prod.fst → getK u k = getK upd k := by
  intro root
  induction root with
  | nil =>
      intro parent upd orig u k h _
      simp only [handleDict] at h
      cases h
      rfl
  | cons hd rest ih =>
      intro parent upd orig u k h hk
      obtain ⟨key, value⟩ := hd
      rw [List.map_cons, List.mem_cons] at hk
      push_neg at hk
      obtain ⟨hk1, hk2⟩ := hk
      simp only [handleDict] at h
      cases hl : levelAttr schema parent key with
      | error e => rw [hl] at h; simp at h
      | ok po =>
          rw [hl] at h
          cases po with
          | none =>
              simp at h
              exact ih parent upd orig u k h hk2
          | some prop =>
              simp at h
              cases value
              case dict inner =>
                  simp at h
                  cases ho : origGet orig key with
                  | error e => rw [ho] at h; simp at h
                  | ok oc =>
                      rw [ho] at h
                      simp at h
                      cases hi : handleDict schema inner (some prop) [] oc with
                      | error e => rw [hi] at h; simp at h
                      | ok sub =>
                          rw [hi] at h
                          simp at h
                          rw [ih parent (setK upd key (.dict sub)) orig u k h hk2,
                            getK_setK_ne upd key k _ hk1]
              all_goals
                simp at h
                cases hd0 : defaultFor parent prop key with
                | error e => rw [hd0] at h; simp at h
                | ok dflt =>
                    rw [hd0] at h
                    simp at h
                    cases hp : handleProp key _ dflt upd orig with
                    | error e => rw [hp] at h; simp at h
                    | ok upd' =>
                        rw [hp] at h
                        simp at h
                        obtain ⟨w, hw⟩ :=
                          handleProp_ok_shape key _ dflt upd orig upd' hp
                        rw [ih parent upd' orig u k h hk2, hw,
                          getK_setK_ne upd key k w hk1]

theorem handleDict_nodup (schema : List (String × Entry)) :
    ∀ (root : List (String × Val)) (parent : Option PropRef)
      (upd : List (String × Val)) (orig : Val) (u : List (String × Val)),
    handleDict schema root parent upd orig = .ok u →
    (upd.map Prod.fst).Nodup → (u.map Prod.fst).Nodup := by
  intro root
  induction root with
  | nil =>
      intro parent upd orig u h hn
      simp only [handleDict] at h
      cases h
      exact hn
  | cons hd rest ih =>
      intro parent upd orig u h hn
      obtain ⟨key, value⟩ := hd
      simp only [handleDict] at h
      cases hl : levelAttr schema parent key with
      | error e => rw [hl] at h; simp at h
      | ok po =>
          rw [hl] at h
          cases po with
          | none =>
              simp at h
              exact ih parent upd orig u h hn
          | some prop =>
              simp at h
              cases value
              case dict inner =>
                  simp at h
                  cases ho : origGet orig key with
                  | error e => rw [ho] at h; simp at h
                  | ok oc =>
                      rw [ho] at h
                      simp at h
                      cases hi : handleDict schema inner (some prop) [] oc with
                      | error e => rw [hi] at h; simp at h
                      | ok sub =>
                          rw [hi] at h
                          simp at h
                          exact ih parent _ orig u h (nodup_setK upd key _ hn)
              all_goals
                simp at h
                cases hd0 : defaultFor parent prop key with
                | error e => rw [hd0] at h; simp at h
                | ok dflt =>
                    rw [hd0] at h
                    simp at h
                    cases hp : handleProp key _ dflt upd orig with
                    | error e => rw [hp] at h; simp at h
                    | ok upd' =>
                        rw [hp] at h
                        simp at h
                        obtain ⟨w, hw⟩ :=
                          handleProp_ok_shape key _ dflt upd orig upd' hp
                        subst hw
                        exact ih parent _ orig u h (nodup_setK upd key w hn)

theorem handleDict_keys (schema : List (String × Entry)) :
    ∀ (root : List (String × Val)) (pr : PropRef) (upd : List (String × Val))
      (orig : Val) (u : List (String × Val)),
    handleDict schema root (some pr) upd orig = .ok u →
    ((upd.map Prod.fst) ++ (root.map Prod.fst)).Nodup →
    u.map Prod.fst = upd.map Prod.fst ++ root.map Prod.fst := by
  intro root
  induction root with
  | nil =>
      intro pr upd orig u h _
      simp only [handleDict] at h
      cases h
      simp
  | cons hd rest ih =>
      intro pr upd orig u h hn
      obtain ⟨key, value⟩ := hd
      rw [List.map_cons] at hn
      have hk1 : key ∉ upd.map Prod.fst := by
        intro hmem
        have := (List.disjoint_of_nodup_append hn) hmem
        simp at this
      have hsetK : ∀ w, ((setK upd key w).map Prod.fst ++ rest.map Prod.fst).Nodup := by
        intro w
        rw [mapFst_setK_not_mem upd key w hk1, List.append_assoc]
        simpa using hn
      simp only [handleDict] at h
      simp only [levelAttr] at h
      cases hl : nestedAttr pr key with
      | error e => rw [hl] at h; simp [Except.map] at h
      | ok pr' =>
          rw [hl] at h
          simp [Except.map] at h
          cases value
          case dict inner =>
              simp at h
              cases ho : origGet orig key with
              | error e => rw [ho] at h; simp at h
              | ok oc =>
                  rw [ho] at h
                  simp at h
                  cases hi : handleDict schema inner (some pr') [] oc with
                  | error e => rw [hi] at h; simp at h
                  | ok sub =>
                      rw [hi] at h
                      simp at h
                      rw [ih pr (setK upd key (.dict sub)) orig u h
                          (hsetK (.dict sub)),
                        mapFst_setK_not_mem upd key _ hk1, List.append_assoc]
                      simp
          all_goals
            simp at h
            cases hd0 : defaultFor (some pr) pr' key with
            | error e => rw [hd0] at h; simp at h
            | ok dflt =>
                rw [hd0] at h
                simp at h
                cases hp : handleProp key _ dflt upd orig with
                | error e => rw [hp] at h; simp at h
                | ok upd' =>
                    rw [hp] at h
                    simp at h
                    obtain ⟨w, hw⟩ :=
                      handleProp_ok_shape key _ dflt upd orig upd' hp
                    subst hw
                    rw [ih pr (setK upd key w) orig u h (hsetK w),
                      mapFst_setK_not_mem upd key _ hk1, List.append_assoc]
                    simp

theorem hdStep_leaf_eq (schema : List (String × Entry)) (parent : Option PropRef)
    (prop : PropRef) (k0 : String) (value dflt orig : Val) (ud : Option Val)
    (hl : levelAttr schema parent k0 = .ok (some prop))
    (hisd : isDict value = false)
    (hd0 : defaultFor parent prop k0 = .ok dflt)
    (hoo : origGetOpt orig k0 = .ok ud) :
    hdStep schema parent k0 value orig =
      .ok (some (match ud with
        | some userdata => if pyEq userdata dflt then value else userdata
        | Option.none => value)) := by
  cases value
  rotate_right 1
  next es => simp [isDict] at hisd
  all_goals
    cases ud with
    | none => simp [hdStep, hl, hd0, hoo]
    | some userdata =>
        by_cases hpe : pyEq userdata dflt = true <;>
          simp [hdStep, hl, hd0, hoo, hpe]

theorem handleDict_level (schema : List (String × Entry)) :
    ∀ (root : List (String × Val)) (parent : Option PropRef)
      (upd : List (String × Val)) (orig : Val) (u : List (String × Val))
      (key : String) (value : Val),
    handleDict schema root parent upd orig = .ok u →
    ((root.map Prod.fst).Nodup) →
    getK root key = some value →
    ∃ r, hdStep schema parent key value orig = .ok r ∧
      ((r = Option.none ∧ getK u key = getK upd key) ∨
       (∃ w, r = some w ∧ getK u key = some w)) := by
  intro root
  induction root with
  | nil =>
      intro parent upd orig u key value _ _ hv
      simp [getK] at hv
  | cons hd rest ih =>
      intro parent upd orig u key value h hn hv
      obtain ⟨k0, v0⟩ := hd
      rw [List.map_cons, List.nodup_cons] at hn
      obtain ⟨hn1, hn2⟩ := hn
      by_cases hkey : k0 = key
      · subst hkey
        simp [getK] at hv
        subst hv
        have hfr : k0 ∉ rest.map Prod.fst := hn1
        simp only [handleDict] at h
        cases hl : levelAttr schema parent k0 with
        | error e => rw [hl] at h; simp at h
        | ok po =>
            rw [hl] at h
            cases po with
            | none =>
                simp at h
                refine ⟨Option.none, ?_, Or.inl ⟨rfl, ?_⟩⟩
                · simp [hdStep, hl]
                · exact handleDict_frame schema rest parent upd orig u k0 h hfr
            | some prop =>
                simp at h
                cases v0
                rotate_right 1
                next inner =>
                    simp at h
                    cases ho : origGet orig k0 with
                    | error e => rw [ho] at h; simp at h
                    | ok oc =>
                        rw [ho] at h
                        simp at h
                        cases hi : handleDict schema inner (some prop) [] oc with
                        | error e => rw [hi] at h; simp at h
                        | ok sub =>
                            rw [hi] at h
                            simp at h
                            refine ⟨some (.dict sub), ?_, Or.inr ⟨_, rfl, ?_⟩⟩
                            · simp [hdStep, hl, ho, hi]
                            · rw [handleDict_frame schema rest parent _ orig u k0 h hfr,
                                getK_setK_self upd k0 _]
                all_goals
                  simp at h
                  cases hd0 : defaultFor parent prop k0 with
                  | error e => rw [hd0] at h; simp at h
                  | ok dflt =>
                      rw [hd0] at h
                      simp at h
                      cases hoo : origGetOpt orig k0 with
                      | error e =>
                          exfalso
                          unfold handleProp at h
                          rw [hoo] at h
                          simp at h
                      | ok ud =>
                          unfold handleProp at h
                          rw [hoo] at h
                          try simp at h
                          cases ud with
                          | none =>
                              try simp at h
                              refine ⟨_, hdStep_leaf_eq schema parent prop k0 _
                                dflt orig _ hl (by rfl) hd0 hoo,
                                Or.inr ⟨_, rfl, ?_⟩⟩
                              rw [handleDict_frame schema rest parent _ orig u k0 h hfr,
                                getK_setK_self upd k0 _]
                          | some userdata =>
                              by_cases hpe : pyEq userdata dflt = true
                              · simp [hpe] at h
                                refine ⟨_, hdStep_leaf_eq schema parent prop k0 _
                                  dflt orig _ hl (by rfl) hd0 hoo,
                                  Or.inr ⟨_, rfl, ?_⟩⟩
                                rw [handleDict_frame schema rest parent _ orig u k0 h hfr,
                                  getK_setK_self upd k0 _]
                                simp [hpe]
                              · simp [hpe] at h
                                refine ⟨_, hdStep_leaf_eq schema parent prop k0 _
                                  dflt orig _ hl (by rfl) hd0 hoo,
                                  Or.inr ⟨_, rfl, ?_⟩⟩
                                rw [handleDict_frame schema rest parent _ orig u k0 h hfr,
                                  getK_setK_self upd k0 _]
                                simp [hpe]
      · simp [getK, hkey] at hv
        simp only [handleDict] at h
        cases hl : levelAttr schema parent k0 with
        | error e => rw [hl] at h; simp at h
        | ok po =>
            rw [hl] at h
            cases po with
            | none =>
                simp at h
                exact ih parent upd orig u key value h hn2 hv
            | some prop =>
                simp at h
                cases v0
                rotate_right 1
                next inner =>
                    simp at h
                    cases ho : origGet orig k0 with
                    | error e => rw [ho] at h; simp at h
                    | ok oc =>
                        rw [ho] at h
                        simp at h
                        cases hi : handleDict schema inner (some prop) [] oc with
                        | error e => rw [hi] at h; simp at h
                        | ok sub =>
                            rw [hi] at h
                            simp at h
                            obtain ⟨r, hr, hc⟩ :=
                              ih parent (setK upd k0 (.dict sub)) orig u key value h hn2 hv
                            refine ⟨r, hr, ?_⟩
                            rcases hc with ⟨hr0, hc⟩ | ⟨w, hw, hc⟩
                            · exact Or.inl ⟨hr0, by
                                rw [hc, getK_setK_ne upd k0 key _ (fun hh => hkey hh.symm)]⟩
                            · exact Or.inr ⟨w, hw, hc⟩
                all_goals
                  simp at h
                  cases hd0 : defaultFor parent prop k0 with
                  | error e => rw [hd0] at h; simp at h
                  | ok dflt =>
                      rw [hd0] at h
                      simp at h
                      cases hp : handleProp k0 _ dflt upd orig with
                      | error e => rw [hp] at h; simp at h
                      | ok upd' =>
                          rw [hp] at h
                          simp at h
                          obtain ⟨w0, hw0⟩ :=
                            handleProp_ok_shape k0 _ dflt upd orig upd' hp
                          subst hw0
                          obtain ⟨r, hr, hc⟩ :=
                            ih parent (setK upd k0 w0) orig u key value h hn2 hv
                          refine ⟨r, hr, ?_⟩
                          rcases hc with ⟨hr0, hc⟩ | ⟨w, hw, hc⟩
                          · exact Or.inl ⟨hr0, by
                              rw [hc, getK_setK_ne upd k0 key _ (fun hh => hkey hh.symm)]⟩
                          · exact Or.inr ⟨w, hw, hc⟩

theorem nodupAlong_head (es : List (String × Val)) (k : String) (ks : List String)
    (h : nodupAlong es (k :: ks)) : (es.map Prod.fst).Nodup := h.1

theorem nodupAlong_tail (es : List (String × Val)) (k : String) (ks : List String)
    (inner : List (String × Val)) (h : nodupAlong es (k :: ks))
    (hg : getK es k = some (.dict inner)) : nodupAlong inner ks := by
  have h2 := h.2
  rw [hg] at h2
  exact h2

theorem handleDict_path (schema : List (String × Entry)) :
    ∀ (p : List String) (parent : Option PropRef)
      (ces ces' : List (String × Entry)) (root : List (String × Val))
      (upd : List (String × Val)) (orig : Val) (u : List (String × Val))
      (key : String) (fv : Val) (ent : Entry),
    handleDict schema root parent upd orig = .ok u →
    (∀ k e, getK ces k = some e →
      levelAttr schema parent k = .ok (some (.entry e))) →
    (∀ k e, getK ces k = some e →
      defaultFor parent (.entry e) k = .ok (entryDefault e)) →
    nodupAlong root (p ++ [key]) →
    valAtPath (.dict root) (p ++ [key]) = some fv →
    isDict fv = false →
    lookupNodePath ces p = some ces' →
    getK ces' key = some ent →
    valAtPath (.dict u) (p ++ [key]) =
      some (match valAtPath orig (p ++ [key]) with
            | some ud => if pyEq ud (entryDefault ent) then fv else ud
            | Option.none => fv) := by
  intro p
  induction p with
  | nil =>
      intro parent ces ces' root upd orig u key fv ent h hattr hdfl hnd hvp hisd hnp hge
      simp [lookupNodePath] at hnp
      subst hnp
      have hnd1 : (root.map Prod.fst).Nodup := nodupAlong_head root key [] hnd
      have hgk : getK root key = some fv := by
        simp only [List.nil_append, valAtPath] at hvp
        cases hg : getK root key with
        | none => rw [hg] at hvp; simp at hvp
        | some w =>
            rw [hg] at hvp
            simp [valAtPath] at hvp
            rw [hvp]
      obtain ⟨r, hr, hc⟩ :=
        handleDict_level schema root parent upd orig u key fv h hnd1 hgk
      have hla : levelAttr schema parent key = .ok (some (.entry ent)) :=
        hattr key ent hge
      have hdf : defaultFor parent (.entry ent) key = .ok (entryDefault ent) :=
        hdfl key ent hge
      cases hoo : origGetOpt orig key with
      | error e =>
          exfalso
          cases fv
          rotate_right 1
          next es => simp [isDict] at hisd
          all_goals simp [hdStep, hla, hdf, hoo] at hr
      | ok ud =>
          have hr' := hdStep_leaf_eq schema parent
            (.entry ent) key fv (entryDefault ent) orig ud hla hisd hdf hoo
          rw [hr'] at hr
          rcases hc with ⟨hrn, _⟩ | ⟨w, hw, hgu⟩
          · rw [hrn] at hr; simp at hr
          · rw [hw] at hr
            simp at hr
            subst hr
            cases orig with
            | dict os =>
                simp [origGetOpt] at hoo
                cases ud <;> simp [valAtPath, hgu, hoo]
            | none => simp [origGetOpt] at hoo
            | bool b => simp [origGetOpt] at hoo
            | int n => simp [origGetOpt] at hoo
            | str s => simp [origGetOpt] at hoo
            | list xs => simp [origGetOpt] at hoo
  | cons k0 p' ih =>
      intro parent ces ces' root upd orig u key fv ent h hattr hdfl hnd hvp hisd hnp hge
      have hvp0 : valAtPath (.dict root) (k0 :: (p' ++ [key])) = some fv := hvp
      simp only [valAtPath] at hvp0
      cases hg0 : getK root k0 with
      | none => rw [hg0] at hvp0; simp at hvp0
      | some v0 =>
          rw [hg0] at hvp0
          cases v0 with
          | dict inner =>
              have hnd1 : (root.map Prod.fst).Nodup :=
                nodupAlong_head root k0 (p' ++ [key]) hnd
              have hndi : nodupAlong inner (p' ++ [key]) :=
                nodupAlong_tail root k0 (p' ++ [key]) inner hnd hg0
              simp only [lookupNodePath] at hnp
              cases hgc : getK ces k0 with
              | none => rw [hgc] at hnp; simp at hnp
              | some e0 =>
                  rw [hgc] at hnp
                  cases e0 with
                  | leaf p0 => simp at hnp
                  | child cn2 cmt2 ces2 =>
                      simp at hnp
                      obtain ⟨r, hr, hc⟩ :=
                        handleDict_level schema root parent upd orig u k0
                          (.dict inner) h hnd1 hg0
                      have hla : levelAttr schema parent k0 =
                          .ok (some (.entry (.child cn2 cmt2 ces2))) :=
                        hattr k0 (.child cn2 cmt2 ces2) hgc
                      cases ho : origGet orig k0 with
                      | error e =>
                          exfalso
                          simp [hdStep, hla, ho] at hr
                      | ok oc =>
                          cases hi : handleDict schema inner
                              (some (.entry (.child cn2 cmt2 ces2))) [] oc with
                          | error e =>
                              exfalso
                              simp [hdStep, hla, ho, hi] at hr
                          | ok sub =>
                              have hr2 : r = some (.dict sub) := by
                                simp [hdStep, hla, ho, hi] at hr
                                exact hr.symm
                              subst hr2
                              rcases hc with ⟨hrn, _⟩ | ⟨w, hw, hgu⟩
                              · simp at hrn
                              · simp at hw
                                subst hw
                                have hihres := ih
                                  (some (.entry (.child cn2 cmt2 ces2))) ces2
                                  ces' inner [] oc sub key fv ent hi
                                  (by
                                    intro k e hk
                                    simp [levelAttr, nestedAttr, hk, Except.map])
                                  (by
                                    intro k e hk
                                    simp [defaultFor, entriesDefault_getK ces2 k e hk])
                                  hndi hvp0 hisd hnp hge
                                have hlhs : valAtPath (.dict u)
                                    ((k0 :: p') ++ [key]) =
                                    valAtPath (.dict sub) (p' ++ [key]) := by
                                  simp only [List.cons_append, valAtPath, hgu]
                                  rfl
                                rw [hlhs, hihres]
                                cases orig with
                                | dict os =>
                                    simp [origGet] at ho
                                    cases hgos : getK os k0 with
                                    | none =>
                                        rw [hgos] at ho
                                        simp at ho
                                        subst ho
                                        simp only [List.cons_append, valAtPath, hgos]
                                        have hnone : valAtPath (Val.dict [])
                                            (p' ++ [key]) = Option.none := by
                                          cases p' <;> simp [valAtPath, getK]
                                        rw [hnone]
                                    | some w0 =>
                                        rw [hgos] at ho
                                        simp at ho
                                        subst ho
                                        simp only [List.cons_append, valAtPath, hgos]
                                        rfl
                                | none => simp [origGet] at ho
                                | bool b => simp [origGet] at ho
                                | int n => simp [origGet] at ho
                                | str s => simp [origGet] at ho
                                | list xs => simp [origGet] at ho
          | none => cases p' <;> simp [valAtPath] at hvp0
          | bool b => cases p' <;> simp [valAtPath] at hvp0
          | int n => cases p' <;> simp [valAtPath] at hvp0
          | str s => cases p' <;> simp [valAtPath] at hvp0
          | list xs => cases p' <;> simp [valAtPath] at hvp0

theorem readFile_decomp (schema : List (String × Entry))
    (st data st' : List (String × Val))
    (h : readFile schema st (.dict data) = .ok st') :
    ∃ updated, handleDict schema data Option.none [] (.dict st) = .ok updated ∧
      st' = dictUpdate st updated := by
  unfold readFile at h
  cases hu : handleDict schema data Option.none [] (.dict st) with
  | error e => simp [hu] at h
  | ok updated =>
      simp [hu, merge] at h
      exact ⟨updated, rfl, h.symm⟩

theorem valAtPath_dictUpdate_of_some (st updated : List (String × Val))
    (hnod : (updated.map Prod.fst).Nodup) (k : String) (rest : List String)
    (z : Val) (hz : valAtPath (.dict updated) (k :: rest) = some z) :
    valAtPath (.dict (dictUpdate st updated)) (k :: rest) = some z := by
  simp only [valAtPath] at hz ⊢
  cases hg : getK updated k with
  | none => rw [hg] at hz; simp at hz
  | some w =>
      rw [hg] at hz
      rw [getK_dictUpdate_some updated st k w hnod hg]
      exact hz

theorem handleDict_append_skip (schema : List (String × Entry)) :
    ∀ (root : List (String × Val)) (upd : List (String × Val)) (orig : Val)
      (key : String) (v : Val),
    topAttr schema key = Option.none →
    handleDict schema (root ++ [(key, v)]) Option.none upd orig =
      handleDict schema root Option.none upd orig := by
  intro root
  induction root with
  | nil =>
      intro upd orig key v htop
      simp [handleDict, levelAttr, htop]
  | cons hd rest ih =>
      intro upd orig key v htop
      obtain ⟨k0, v0⟩ := hd
      rw [List.cons_append]
      simp only [handleDict]
      cases hl : levelAttr schema Option.none k0 with
      | error e => simp [hl]
      | ok po =>
          cases po with
          | none =>
              simp only [hl]
              simpa using ih upd orig key v htop
          | some prop =>
              cases v0
              case dict inner =>
                  cases ho : origGet orig k0 with
                  | error e => simp [hl, ho]
                  | ok oc =>
                      cases hi : handleDict schema inner (some prop) [] oc with
                      | error e => simp [hl, ho, hi]
                      | ok sub =>
                          simp only [hl, ho, hi]
                          simpa using ih _ orig key v htop
              case none =>
                cases hd0 : defaultFor Option.none prop k0 with
                | error e => simp [hl, hd0]
                | ok dflt =>
                    cases hp : handleProp k0 Val.none dflt upd orig with
                    | error e => simp [hl, hd0, hp]
                    | ok upd2 =>
                        simp only [hl, hd0, hp]
                        simpa using ih upd2 orig key v htop
              case bool bb =>
                cases hd0 : defaultFor Option.none prop k0 with
                | error e => simp [hl, hd0]
                | ok dflt =>
                    cases hp : handleProp k0 (Val.bool bb) dflt upd orig with
                    | error e => simp [hl, hd0, hp]
                    | ok upd2 =>
                        simp only [hl, hd0, hp]
                        simpa using ih upd2 orig key v htop
              case int nn =>
                cases hd0 : defaultFor Option.none prop k0 with
                | error e => simp [hl, hd0]
                | ok dflt =>
                    cases hp : handleProp k0 (Val.int nn) dflt upd orig with
                    | error e => simp [hl, hd0, hp]
                    | ok upd2 =>
                        simp only [hl, hd0, hp]
                        simpa using ih upd2 orig key v htop
              case str ss =>
                cases hd0 : defaultFor Option.none prop k0 with
                | error e => simp [hl, hd0]
                | ok dflt =>
                    cases hp : handleProp k0 (Val.str ss) dflt upd orig with
                    | error e => simp [hl, hd0, hp]
                    | ok upd2 =>
                        simp only [hl, hd0, hp]
                        simpa using ih upd2 orig key v htop
              case list ll =>
                cases hd0 : defaultFor Option.none prop k0 with
                | error e => simp [hl, hd0]
                | ok dflt =>
                    cases hp : handleProp k0 (Val.list ll) dflt upd orig with
                    | error e => simp [hl, hd0, hp]
                    | ok upd2 =>
                        simp only [hl, hd0, hp]
                        simpa using ih upd2 orig key v htop

theorem getK_append_fresh {α : Type} (d : List (String × α)) (k : String) (v : α)
    (h : getK d k = Option.none) : getK (d ++ [(k, v)]) k = some v := by
  rw [← setK_of_getK_none d k v h, getK_setK_self]

theorem getRootLoop_spec (p : NodeInst) :
    ∀ levels, getRootLoop p levels = (NodeInst.root, levels ++ (pathKeys p).reverse) := by
  induction p with
  | root => intro levels; simp [getRootLoop, pathKeys]
  | child pp k ih =>
      intro levels
      simp [getRootLoop, pathKeys, ih (levels ++ [k]), List.reverse_append]

/-- C1.  Property read precedence: for a property with `auto_global` set, a
non-empty environment binding, and a host attached, the command-line-global
value wins whenever it is present and `!=` the default; failing that, a set
environment variable wins (arriving as a string); failing that, the raw
store's value at the property's name; and with none of those the read
resolves to the default.  The final conjunct ties the source chain to the
full read: with no declared `config_type` the read returns the resolved
value unchanged. -/
theorem precedence_of_property_reads
    (p : PropSpec) (g : List (String × Val)) (env : List (String × String))
    (st : List (String × Val))
    (hag : p.autoGlobal = true) (hen : envNameTruthy p = true) :
    (∀ G, getK g p.qualifiedName = some G → pyEq G p.default = false →
      resolveValue p (some g) env st = G) ∧
    ((getK g p.qualifiedName = Option.none ∨
      (∃ G, getK g p.qualifiedName = some G ∧ pyEq G p.default = true)) →
     ∀ s, envGet env p = some s → resolveValue p (some g) env st = .str s) ∧
    ((getK g p.qualifiedName = Option.none ∨
      (∃ G, getK g p.qualifiedName = some G ∧ pyEq G p.default = true)) →
     envGet env p = Option.none →
     (∀ v, getK st p.name = some v → resolveValue p (some g) env st = v) ∧
     (getK st p.name = Option.none → resolveValue p (some g) env st = p.default)) ∧
    (p.configType = Option.none →
      propGet p (some g) env st = .ok (resolveValue p (some g) env st)) := by
  refine ⟨?_, ?_, ?_, ?_⟩
  · intro G hG hne
    simp [resolveValue, hag, hG, hne]
  · rintro (hnone | ⟨G, hG, heq⟩) s hs
    · simp [resolveValue, hag, hnone, hen, hs]
    · simp [resolveValue, hag, hG, heq, hen, hs]
  · rintro (hnone | ⟨G, hG, heq⟩) henv
    · exact ⟨fun v hv => by simp [resolveValue, hag, hnone, hen, henv, hv],
        fun h0 => by simp [resolveValue, hag, hnone, hen, henv, h0]⟩
    · exact ⟨fun v hv => by simp [resolveValue, hag, hG, heq, hen, henv, hv],
        fun h0 => by simp [resolveValue, hag, hG, heq, hen, henv, h0]⟩
  · intro hct
    simp [propGet, hct]

theorem precedence_of_property_reads_witness :
    resolveValue pGlobalW (some [("gprop", Val.int 7)]) [("MYVAR", "es")]
      [("gprop", Val.int 9)] = Val.int 7 ∧
    resolveValue pGlobalW (some [("gprop", Val.int 3)]) [("MYVAR", "es")]
      [("gprop", Val.int 9)] = Val.str "es" ∧
    resolveValue pGlobalW (some []) [] [("gprop", Val.int 9)] = Val.int 9 ∧
    resolveValue pGlobalW (some []) [] [] = Val.int 3 := by
  refine ⟨?_, ?_, ?_, ?_⟩
  · exact (precedence_of_property_reads pGlobalW [("gprop", Val.int 7)]
      [("MYVAR", "es")] [("gprop", Val.int 9)] rfl rfl).1 (Val.int 7) rfl rfl
  · exact (precedence_of_property_reads pGlobalW [("gprop", Val.int 3)]
      [("MYVAR", "es")] [("gprop", Val.int 9)] rfl rfl).2.1
      (Or.inr ⟨Val.int 3, rfl, rfl⟩) "es" rfl
  · exact ((precedence_of_property_reads pGlobalW [] []
      [("gprop", Val.int 9)] rfl rfl).2.2.1 (Or.inl rfl) rfl).1 (Val.int 9) rfl
  · exact ((precedence_of_property_reads pGlobalW [] [] [] rfl rfl).2.2.1
      (Or.inl rfl) rfl).2 rfl

/-- C4 (amended).  `get_root()` on a non-root instance returns the true
root together with the full key path from the root to the property (the
ancestor keys, innermost last, followed by the property name); its
dot-joined form is the full dotted path.  `qualified_name`, by contrast, is
derived only from the immediate owner class's lowercased name, so for a
deeply nested property the two differ (see the counterexample). -/
theorem get_root_full_path (pp : NodeInst) (k name : String) :
    getRoot (NodeInst.child pp k) (some name) =
      some (NodeInst.root, pathKeys (NodeInst.child pp k) ++ [name]) ∧
    (∀ (dflt : Val) (cmt : Option String) (ct : Option CType)
       (en : Option String) (ae ag : Bool) (gn : Option String) (ocn : String),
      (mkProp dflt cmt ct en ae ag gn false ocn name).qualifiedName =
        pyLower ocn ++ "." ++ name) := by
  constructor
  · simp [getRoot, getRootLoop_spec pp [name, k], pathKeys, List.reverse_append]
  · intro dflt cmt ct en ae ag gn ocn
    simp [mkProp]

theorem qualified_name_depth3_cex :
    getRoot inst3 (some "p") =
      some (NodeInst.root, ["alpha", "beta", "gamma", "p"]) ∧
    String.intercalate "." ["alpha", "beta", "gamma", "p"] = "alpha.beta.gamma.p" ∧
    pDeep.qualifiedName = "gamma.p" ∧
    "alpha.beta.gamma.p" ≠ "gamma.p" := by
  refine ⟨rfl, rfl, rfl, by decide⟩

/-- C7 (amended).  A descriptor built without an explicit `config_type` but
with a *truthy* default infers `config_type` as the runtime type of the
default, and every subsequently resolved non-null value goes through that
type's conversion (falsy defaults such as `0`, `False`, `""` or `[]` leave
`config_type` unset — see the counterexample). -/
theorem type_inference_truthy_default
    (dflt : Val) (cmt : Option String) (en : Option String) (ae ag : Bool)
    (gn : Option String) (oc : Bool) (ocn name : String)
    (ht : pyTruthy dflt = true) :
    (mkProp dflt cmt Option.none en ae ag gn oc ocn name).configType =
      some (pyTypeOf dflt) ∧
    (∀ app env st,
      resolveValue (mkProp dflt cmt Option.none en ae ag gn oc ocn name)
        app env st ≠ Val.none →
      propGet (mkProp dflt cmt Option.none en ae ag gn oc ocn name) app env st =
        coerceStep (pyTypeOf dflt)
          (resolveValue (mkProp dflt cmt Option.none en ae ag gn oc ocn name)
            app env st)) := by
  have hct : (mkProp dflt cmt Option.none en ae ag gn oc ocn name).configType =
      some (pyTypeOf dflt) := by
    simp [mkProp, ht]
  refine ⟨hct, ?_⟩
  intro app env st hnn
  cases hv : resolveValue (mkProp dflt cmt Option.none en ae ag gn oc ocn name)
      app env st with
  | none => exact absurd hv hnn
  | bool b => simp [propGet, hct, hv]
  | int n => simp [propGet, hct, hv]
  | str s => simp [propGet, hct, hv]
  | list xs => simp [propGet, hct, hv]
  | dict es => simp [propGet, hct, hv]

theorem type_inference_falsy_default_cex :
    pZero.configType = Option.none ∧
    pyTruthy (Val.int 0) = false ∧
    propGet pZero Option.none [] [("zero", Val.str "5")] = .ok (Val.str "5") :=
  ⟨rfl, rfl, rfl⟩

theorem type_inference_truthy_default_witness :
    pNum.configType = some (pyTypeOf (Val.int 5)) ∧
    propGet pNum Option.none [] [("num", Val.str "7")] =
      coerceStep (pyTypeOf (Val.int 5))
        (resolveValue pNum Option.none [] [("num", Val.str "7")]) := by
  have h := type_inference_truthy_default (Val.int 5) Option.none Option.none
    false false Option.none true "SampleConfig" "num" rfl
  exact ⟨h.1, h.2 Option.none [] [("num", Val.str "7")]
    (fun hc => Val.noConfusion hc)⟩

/-- C5 (amended).  When a declared `config_type` cannot convert a non-null
resolved value, the read raises an error and never silently substitutes the
default: a conversion failing with `TypeError` is re-raised as a
`ConfigError` naming the offending value and the expected type, while any
other conversion error (such as `ValueError` from `int` on a non-numeric
string) propagates unchanged — see the counterexample for the latter. -/
theorem coercion_failure_raises
    (p : PropSpec) (app : Option (List (String × Val)))
    (env : List (String × String)) (st : List (String × Val))
    (t : CType) (e : PyExc)
    (hct : p.configType = some t)
    (hnn : resolveValue p app env st ≠ Val.none)
    (hfail : coerceType t (resolveValue p app env st) = .error e) :
    propGet p app env st =
      .error (coerceFailExc t (resolveValue p app env st) e) := by
  cases hv : resolveValue p app env st with
  | none => exact absurd hv hnn
  | bool b =>
      rw [hv] at hfail
      cases e <;> simp [propGet, hct, hv, coerceStep, coerceFailExc, hfail]
  | int n =>
      rw [hv] at hfail
      cases e <;> simp [propGet, hct, hv, coerceStep, coerceFailExc, hfail]
  | list xs =>
      rw [hv] at hfail
      cases e <;> simp [propGet, hct, hv, coerceStep, coerceFailExc, hfail]
  | dict es =>
      rw [hv] at hfail
      cases e <;> simp [propGet, hct, hv, coerceStep, coerceFailExc, hfail]
  | str s =>
      rw [hv] at hfail
      cases t with
      | list => simp [coerceType] at hfail
      | bool => simp [coerceType] at hfail
      | str => simp [coerceType] at hfail
      | int => cases e <;> simp [propGet, hct, hv, coerceStep, coerceFailExc, hfail]
      | dict => cases e <;> simp [propGet, hct, hv, coerceStep, coerceFailExc, hfail]
      | noneT => cases e <;> simp [propGet, hct, hv, coerceStep, coerceFailExc, hfail]

theorem coercion_valueerror_not_configerror_cex :
    propGet pNum Option.none [] [("num", Val.str "abc")] =
      .error PyExc.valueError ∧
    (∀ msg, propGet pNum Option.none [] [("num", Val.str "abc")] ≠
      .error (PyExc.configError msg)) := by
  refine ⟨rfl, ?_⟩
  intro msg hcon
  have hr : propGet pNum Option.none [] [("num", Val.str "abc")] =
      .error PyExc.valueError := rfl
  rw [hr] at hcon
  injection hcon with h3
  exact PyExc.noConfusion h3

theorem coercion_failure_raises_witness :
    propGet pNum Option.none [] [("num", Val.list [])] =
      .error (.configError "Expected type <class \x27int\x27> for []") :=
  coercion_failure_raises pNum Option.none [] [("num", Val.list [])]
    CType.int PyExc.typeError rfl (fun hc => Val.noConfusion hc) rfl

/-- C8 (amended).  In the TOML serializer's per-leaf emission: a comment
longer than 40 characters is emitted as standalone comment line(s) above
the key (after a blank line); a comment of 40 characters or less is
attached inline to the assignment only when the value is not `None`; for a
`None` value only the commented-out placeholder is emitted and the comment
is dropped — see the counterexample. -/
theorem toml_comment_placement (key : String) (v : Val) (c : String) :
    (c.length > 40 →
      tomlEmitLeaf key v (some c) =
        [TomlItem.nl] ++ addCommentItems c ++ addValueItems key v) ∧
    (c.length ≤ 40 → v ≠ Val.none →
      tomlEmitLeaf key v (some c) = [TomlItem.kv key v (some c)]) ∧
    (c.length ≤ 40 → v = Val.none →
      tomlEmitLeaf key v (some c) =
        [TomlItem.comment (key ++ " = # Uncomment to use")]) := by
  refine ⟨?_, ?_, ?_⟩
  · intro hlen
    simp [tomlEmitLeaf, hlen]
  · intro hlen hnn
    have hno : ¬(c.length > 40) := by omega
    cases v with
    | none => exact absurd rfl hnn
    | bool b => simp [tomlEmitLeaf, hno]
    | int n => simp [tomlEmitLeaf, hno]
    | str s => simp [tomlEmitLeaf, hno]
    | list xs => simp [tomlEmitLeaf, hno]
    | dict es => simp [tomlEmitLeaf, hno]
  · intro hlen hv
    subst hv
    have hno : ¬(c.length > 40) := by omega
    simp [tomlEmitLeaf, hno]

theorem toml_short_comment_none_value_cex :
    tomlEmitLeaf "k" Val.none (some "short") =
      [TomlItem.comment "k = # Uncomment to use"] ∧
    "short".length ≤ 40 ∧
    (∀ it ∈ tomlEmitLeaf "k" Val.none (some "short"),
      ∀ k2 v2, it ≠ TomlItem.kv k2 v2 (some "short")) := by
  refine ⟨rfl, by decide, ?_⟩
  intro it hit k2 v2 hne
  rw [show tomlEmitLeaf "k" Val.none (some "short") =
    [TomlItem.comment "k = # Uncomment to use"] from rfl] at hit
  simp at hit
  subst hit
  exact TomlItem.noConfusion hne

theorem toml_comment_placement_witness :
    tomlEmitLeaf "k1" (Val.int 4) (some (String.mk (List.replicate 41 'x'))) =
      [TomlItem.nl] ++ addCommentItems (String.mk (List.replicate 41 'x')) ++
        addValueItems "k1" (Val.int 4) ∧
    tomlEmitLeaf "k2" (Val.int 4) (some "hi") =
      [TomlItem.kv "k2" (Val.int 4) (some "hi")] ∧
    tomlEmitLeaf "k3" Val.none (some "hi") =
      [TomlItem.comment ("k3" ++ " = # Uncomment to use")] := by
  refine ⟨?_, ?_, ?_⟩
  · exact (toml_comment_placement "k1" (Val.int 4) _).1 (by decide)
  · exact (toml_comment_placement "k2" (Val.int 4) "hi").2.1 (by decide)
      (fun hc => Val.noConfusion hc)
  · exact (toml_comment_placement "k3" Val.none "hi").2.2 (by decide) rfl

/-- C3 (code evaluation at the failing input).  The INI round-trip breaks
for booleans: an instance whose boolean `flag` (default `True`,
`config_type` inferred `bool`) is set to `False` resolves and dumps the
string `"False"`; loading that into a fresh instance stores the string,
and the read's `bool("False")` coercion yields `True` — not the `False`
that was dumped. -/
theorem ini_bool_roundtrip_failure_eval :
    propGet pFlag Option.none [] [("flag", Val.bool false)] =
      .ok (Val.bool false) ∧
    iniDumpValue (Val.bool false) = "False" ∧
    readFile flagSchema [] (Val.dict [("flag", Val.str "False")]) =
      .ok [("flag", Val.str "False")] ∧
    propGet pFlag Option.none [] [("flag", Val.str "False")] =
      .ok (Val.bool true) := by
  refine ⟨rfl, rfl, ?_, rfl⟩
  simp [readFile, handleDict, levelAttr, topAttr, getK, setK, origGetOpt,
    handleProp, defaultFor, flagSchema, pFlag, mkProp, merge, dictUpdate,
    pyEq, entryDefault, pyTruthy]

/-- C9.  `Config.__getitem__` on a declared child key with no entry in the
raw store inserts a copy of the child's default mapping into the store
under that key and returns that stored value, so the first read of an
unset child key changes the raw store (in this pure embedding the "deep
copy" is the value itself; the aliasing aspect of `copy.deepcopy` is not
observable). -/
theorem getitem_materializes_child_defaults
    (schema : List (String × Entry)) (st : List (String × Val)) (k cn : String)
    (cmt : Option String) (es : List (String × Entry))
    (hdecl : getK schema k = some (.child cn cmt es))
    (habs : getK st k = Option.none) :
    configGetItem schema st k =
      .ok (Val.dict (entriesDefault es),
           st ++ [(k, Val.dict (entriesDefault es))]) ∧
    getK (st ++ [(k, Val.dict (entriesDefault es))]) k =
      some (Val.dict (entriesDefault es)) ∧
    st ++ [(k, Val.dict (entriesDefault es))] ≠ st := by
  refine ⟨?_, ?_, ?_⟩
  · simp [configGetItem, hdecl, habs, setK_of_getK_none st k _ habs]
  · exact getK_append_fresh st k _ habs
  · intro hcon
    have hlen := congrArg List.length hcon
    simp at hlen

theorem getitem_materializes_child_defaults_witness :
    configGetItem sampleSchema [] "sub" =
      .ok (Val.dict [("c", Val.str "x"), ("d", Val.str "w")],
           [("sub", Val.dict [("c", Val.str "x"), ("d", Val.str "w")])]) ∧
    [("sub", Val.dict [("c", Val.str "x"), ("d", Val.str "w")])] ≠
      ([] : List (String × Val)) := by
  have h := getitem_materializes_child_defaults sampleSchema [] "sub" "Sub"
    Option.none [("c", Entry.leaf pC), ("d", Entry.leaf pD)] rfl rfl
  exact ⟨h.1, h.2.2⟩

/-- C6 (amended).  `read_file` silently skips a *top-level* key that
matches no class attribute: such a key leaves the raw store untouched at
that key, and appending it to any successfully loading file leaves the
load succeeding with the same result.  At nested levels an unknown key is
not skipped but raises `AttributeError` — see the counterexample. -/
theorem unknown_key_top_level_skip
    (schema : List (String × Entry)) (st data st' : List (String × Val))
    (key : String) (v : Val)
    (h : readFile schema st (.dict data) = .ok st')
    (hnod : (data.map Prod.fst).Nodup)
    (hund : getK schema key = Option.none)
    (hattr : key ∉ configClassAttrNames) :
    getK st' key = getK st key ∧
    readFile schema st (.dict (data ++ [(key, v)])) = .ok st' := by
  obtain ⟨updated, hu, hst'⟩ := readFile_decomp schema st data st' h
  subst hst'
  have htop : topAttr schema key = Option.none := by
    simp [topAttr, hund, hattr]
  constructor
  · have hupd : getK updated key = Option.none := by
      cases hgd : getK data key with
      | none =>
          have hnm : key ∉ data.map Prod.fst := (getK_eq_none_iff data key).mp hgd
          rw [handleDict_frame schema data Option.none [] (.dict st) updated
            key hu hnm]
          rfl
      | some value =>
          obtain ⟨r, hr, hc⟩ := handleDict_level schema data Option.none []
            (.dict st) updated key value hu hnod hgd
          have hrr : r = Option.none := by
            simp [hdStep, levelAttr, htop] at hr
            exact hr.symm
          subst hrr
          rcases hc with ⟨_, hc⟩ | ⟨w, hw, _⟩
          · rw [hc]; rfl
          · exact absurd hw.symm (by simp)
    rw [getK_dictUpdate_none st updated key hupd]
  · simp only [readFile]
    rw [handleDict_append_skip schema data [] (.dict st) key v htop, hu]
    simp [merge]

theorem unknown_key_nested_raises_cex :
    readFile sampleSchema [] (.dict [("sub", Val.dict [("zzz", Val.int 1)])]) =
      .error .attributeError := by
  simp [readFile, handleDict, levelAttr, topAttr, nestedAttr, sampleSchema,
    getK, origGet, nestableClassAttrNames, Except.map]

theorem unknown_key_top_level_skip_witness :
    getK [("a", Val.int 5)] "extra" = getK ([] : List (String × Val)) "extra" ∧
    readFile sampleSchema [] (.dict ([("a", Val.int 5)] ++ [("extra", Val.int 9)])) =
      .ok [("a", Val.int 5)] := by
  have h := unknown_key_top_level_skip sampleSchema [] [("a", Val.int 5)]
    [("a", Val.int 5)] "extra" (Val.int 9)
    (by
      simp [readFile, handleDict, levelAttr, topAttr, getK, setK, origGetOpt,
        handleProp, defaultFor, sampleSchema, pA, mkProp, merge, dictUpdate,
        pyEq, entryDefault])
    (by simp) rfl (by decide)
  exact h

/-- C2 (amended).  Merge-on-load preservation, per leaf: for every leaf the
load visits with a non-mapping file value, the stored value is kept exactly
when it exists and `!=` the leaf's default, and otherwise the file's value
is stored (first conjunct, at arbitrary nesting depth).  For a *top-level*
leaf explicitly set to a non-default value, any file that does not map that
key to a mapping leaves the stored value intact, whether or not the file
mentions the key (second conjunct).  For a *nested* customized leaf this
fails when a file contains the enclosing child mapping without that leaf —
see the counterexample. -/
theorem merge_on_load_per_leaf_rule :
    (∀ (schema : List (String × Entry)) (st data st' : List (String × Val))
       (ks : List String) (key : String) (fv : Val)
       (ces' : List (String × Entry)) (ent : Entry),
      readFile schema st (.dict data) = .ok st' →
      nodupAlong data (ks ++ [key]) →
      valAtPath (.dict data) (ks ++ [key]) = some fv →
      isDict fv = false →
      lookupNodePath schema ks = some ces' →
      getK ces' key = some ent →
      valAtPath (.dict st') (ks ++ [key]) =
        some (match valAtPath (.dict st) (ks ++ [key]) with
              | some ud => if pyEq ud (entryDefault ent) then fv else ud
              | Option.none => fv)) ∧
    (∀ (schema : List (String × Entry)) (st data st' : List (String × Val))
       (key : String) (V : Val) (ent : Entry),
      readFile schema st (.dict data) = .ok st' →
      (data.map Prod.fst).Nodup →
      getK schema key = some ent →
      getK st key = some V →
      pyEq V (entryDefault ent) = false →
      (∀ fes, getK data key ≠ some (Val.dict fes)) →
      getK st' key = some V) := by
  constructor
  · intro schema st data st' ks key fv ces' ent h hnd hvp hisd hnp hge
    obtain ⟨updated, hu, hst'⟩ := readFile_decomp schema st data st' h
    subst hst'
    have hpath := handleDict_path schema ks Option.none schema ces' data []
      (.dict st) updated key fv ent hu
      (fun k e hk => by simp [levelAttr, topAttr, hk])
      (fun k e hk => by simp [defaultFor])
      hnd hvp hisd hnp hge
    have hnodup : (updated.map Prod.fst).Nodup :=
      handleDict_nodup schema data Option.none [] (.dict st) updated hu (by simp)
    obtain ⟨k1, rest1, hsh⟩ : ∃ a l, ks ++ [key] = a :: l := by
      cases ks with
      | nil => exact ⟨key, [], rfl⟩
      | cons a l => exact ⟨a, l ++ [key], rfl⟩
    rw [hsh] at hpath ⊢
    exact valAtPath_dictUpdate_of_some st updated hnodup k1 rest1 _ hpath
  · intro schema st data st' key V ent h hnod hdecl hstv hne hnodict
    obtain ⟨updated, hu, hst'⟩ := readFile_decomp schema st data st' h
    subst hst'
    have hnodup : (updated.map Prod.fst).Nodup :=
      handleDict_nodup schema data Option.none [] (.dict st) updated hu (by simp)
    cases hgd : getK data key with
    | none =>
        have hnm : key ∉ data.map Prod.fst := (getK_eq_none_iff data key).mp hgd
        have hupd : getK updated key = Option.none := by
          rw [handleDict_frame schema data Option.none [] (.dict st) updated
            key hu hnm]
          rfl
        rw [getK_dictUpdate_none st updated key hupd]
        exact hstv
    | some fv =>
        have hisd : isDict fv = false := by
          cases fv
          case dict fes => exact absurd hgd (hnodict fes)
          all_goals rfl
        obtain ⟨r, hr, hc⟩ := handleDict_level schema data Option.none []
          (.dict st) updated key fv hu hnod hgd
        have hla : levelAttr schema Option.none key = .ok (some (.entry ent)) := by
          simp [levelAttr, topAttr, hdecl]
        have hdf : defaultFor Option.none (.entry ent) key =
            .ok (entryDefault ent) := by
          simp [defaultFor]
        have hoo : origGetOpt (.dict st) key = .ok (some V) := by
          simp [origGetOpt, hstv]
        have hr' := hdStep_leaf_eq schema Option.none (.entry ent) key fv
          (entryDefault ent) (.dict st) (some V) hla hisd hdf hoo
        rw [hr'] at hr
        rcases hc with ⟨hrn, _⟩ | ⟨w, hw, hgu⟩
        · rw [hrn] at hr; simp at hr
        · rw [hw] at hr
          simp [hne] at hr
          rw [← hr] at hgu
          exact getK_dictUpdate_some updated st key V hnodup hgu

theorem merge_on_load_nested_loss_cex :
    readFile sampleSchema [("sub", Val.dict [("c", Val.str "y")])]
      (.dict [("sub", Val.dict [("d", Val.str "z")])]) =
      .ok [("sub", Val.dict [("d", Val.str "z")])] ∧
    nestedPropGet sampleSchema pC [] [("sub", Val.dict [("c", Val.str "y")])]
      ["sub", "c"] =
      .ok (Val.str "y", [("sub", Val.dict [("c", Val.str "y")])]) ∧
    pC.default = Val.str "x" ∧
    pyEq (Val.str "y") pC.default = false ∧
    nestedPropGet sampleSchema pC [] [("sub", Val.dict [("d", Val.str "z")])]
      ["sub", "c"] =
      .ok (Val.str "x", [("sub", Val.dict [("d", Val.str "z")])]) := by
  refine ⟨?_, rfl, rfl, rfl, rfl⟩
  simp [readFile, handleDict, levelAttr, topAttr, nestedAttr, getK, setK,
    origGet, origGetOpt, handleProp, defaultFor, sampleSchema, pC, pD, mkProp,
    merge, dictUpdate, pyEq, entriesDefault, entryDefault, Except.map]

theorem merge_on_load_per_leaf_rule_witness :
    valAtPath (Val.dict [("sub", Val.dict [("c", Val.str "y")])])
      (["sub"] ++ ["c"]) = some (Val.str "y") ∧
    getK [("a", Val.int 7)] "a" = some (Val.int 7) := by
  constructor
  · have h := merge_on_load_per_leaf_rule.1 sampleSchema
      [("sub", Val.dict [("c", Val.str "y")])]
      [("sub", Val.dict [("c", Val.str "z")])]
      [("sub", Val.dict [("c", Val.str "y")])]
      ["sub"] "c" (Val.str "z")
      [("c", Entry.leaf pC), ("d", Entry.leaf pD)] (Entry.leaf pC)
      (by
        simp [readFile, handleDict, levelAttr, topAttr, nestedAttr, getK, setK,
          origGet, origGetOpt, handleProp, defaultFor, sampleSchema, pC, pD,
          mkProp, merge, dictUpdate, pyEq, entriesDefault, entryDefault,
          Except.map])
      (by simp [nodupAlong, getK])
      rfl rfl rfl rfl
    simpa using h
  · have h := merge_on_load_per_leaf_rule.2 sampleSchema [("a", Val.int 7)]
      [("a", Val.int 99)] [("a", Val.int 7)] "a" (Val.int 7) (Entry.leaf pA)
      (by
        simp [readFile, handleDict, levelAttr, topAttr, getK, setK, origGetOpt,
          handleProp, defaultFor, sampleSchema, pA, mkProp, merge, dictUpdate,
          pyEq, entryDefault])
      (by simp) rfl rfl rfl
      (fun fes hcon => by
        rw [show getK [("a", Val.int 99)] "a" = some (Val.int 99) from rfl] at hcon
        exact Val.noConfusion (Option.some.inj hcon))
    exact h

/-- C10.  `read_file` rebuilds a declared child node's raw-store entry from
the file's key set: when a top-level key is a declared child and the file
maps it to a mapping, the store afterwards holds under that key a freshly
built mapping whose keys are exactly the file mapping's keys; any key
previously stored under the child but absent from the file's mapping is
gone, and each non-mapping leaf of the file's mapping is chosen by the
per-leaf preservation rule against the child's previous store entry. -/
theorem read_file_rebuilds_child_mapping
    (schema : List (String × Entry)) (st data st' : List (String × Val))
    (k cn : String) (cmt : Option String) (ces : List (String × Entry))
    (fes : List (String × Val))
    (h : readFile schema st (.dict data) = .ok st')
    (hnod : (data.map Prod.fst).Nodup)
    (hnodf : (fes.map Prod.fst).Nodup)
    (hgd : getK data k = some (.dict fes))
    (hdecl : getK schema k = some (.child cn cmt ces)) :
    ∃ sub, getK st' k = some (.dict sub) ∧
      sub.map Prod.fst = fes.map Prod.fst ∧
      (∀ k2, k2 ∉ fes.map Prod.fst → getK sub k2 = Option.none) ∧
      (∀ key2 fv, getK fes key2 = some fv → isDict fv = false →
        ∃ os, (getK st k).getD (Val.dict []) = Val.dict os ∧
          getK sub key2 = some (match getK os key2 with
            | some ud =>
                if pyEq ud ((getK (entriesDefault ces) key2).getD Val.none)
                then fv else ud
            | Option.none => fv)) := by
  obtain ⟨updated, hu, hst'⟩ := readFile_decomp schema st data st' h
  subst hst'
  have hnodup : (updated.map Prod.fst).Nodup :=
    handleDict_nodup schema data Option.none [] (.dict st) updated hu (by simp)
  obtain ⟨r, hr, hc⟩ := handleDict_level schema data Option.none [] (.dict st)
    updated k (.dict fes) hu hnod hgd
  have hla : levelAttr schema Option.none k =
      .ok (some (.entry (.child cn cmt ces))) := by
    simp [levelAttr, topAttr, hdecl]
  cases ho : origGet (.dict st) k with
  | error e => simp [origGet] at ho
  | ok oc =>
      have hoc : oc = (getK st k).getD (Val.dict []) := by
        simp [origGet] at ho
        exact ho.symm
      cases hi : handleDict schema fes (some (.entry (.child cn cmt ces)))
          [] oc with
      | error e =>
          exfalso
          simp [hdStep, hla, ho, hi] at hr
      | ok sub =>
          have hrr : r = some (.dict sub) := by
            simp [hdStep, hla, ho, hi] at hr
            exact hr.symm
          subst hrr
          rcases hc with ⟨hrn, _⟩ | ⟨w, hw, hgu⟩
          · simp at hrn
          · simp at hw
            subst hw
            have hkeys : sub.map Prod.fst = fes.map Prod.fst := by
              simpa using handleDict_keys schema fes
                (.entry (.child cn cmt ces)) [] oc sub hi (by simpa using hnodf)
            refine ⟨sub, ?_, hkeys, ?_, ?_⟩
            · exact getK_dictUpdate_some updated st k (.dict sub) hnodup hgu
            · intro k2 hk2
              exact (getK_eq_none_iff sub k2).mpr (by rw [hkeys]; exact hk2)
            · intro key2 fv hff hnd2
              obtain ⟨r2, hr2, hc2⟩ := handleDict_level schema fes
                (some (.entry (.child cn cmt ces))) [] oc sub key2 fv hi
                hnodf hff
              cases hla2 : levelAttr schema
                  (some (.entry (.child cn cmt ces))) key2 with
              | error e =>
                  exfalso
                  simp [hdStep, hla2] at hr2
              | ok po =>
                  cases po with
                  | none =>
                      exfalso
                      cases hna : nestedAttr (.entry (.child cn cmt ces)) key2 <;>
                        simp [levelAttr, hna, Except.map] at hla2
                  | some pr2 =>
                      have hdf2 : defaultFor (some (.entry (.child cn cmt ces)))
                          pr2 key2 =
                          .ok ((getK (entriesDefault ces) key2).getD Val.none) := by
                        simp [defaultFor]
                      cases hoo2 : origGetOpt oc key2 with
                      | error e =>
                          exfalso
                          cases fv
                          rotate_right 1
                          next es2 => simp [isDict] at hnd2
                          all_goals simp [hdStep, hla2, hdf2, hoo2] at hr2
                      | ok ud =>
                          have hr2' := hdStep_leaf_eq schema
                            (some (.entry (.child cn cmt ces))) pr2 key2 fv
                            ((getK (entriesDefault ces) key2).getD Val.none)
                            oc ud hla2 hnd2 hdf2 hoo2
                          rw [hr2'] at hr2
                          rcases hc2 with ⟨hrn2, _⟩ | ⟨w2, hw2, hgu2⟩
                          · rw [hrn2] at hr2; simp at hr2
                          · rw [hw2] at hr2
                            simp at hr2
                            subst hr2
                            cases oc with
                            | dict os =>
                                refine ⟨os, hoc.symm, ?_⟩
                                simp [origGetOpt] at hoo2
                                cases ud <;> simp [hgu2, hoo2]
                            | none => simp [origGetOpt] at hoo2
                            | bool b => simp [origGetOpt] at hoo2
                            | int n => simp [origGetOpt] at hoo2
                            | str s => simp [origGetOpt] at hoo2
                            | list xs => simp [origGetOpt] at hoo2

theorem read_file_rebuilds_child_mapping_witness :
    ∃ sub, getK [("sub", Val.dict [("d", Val.str "z")])] "sub" =
        some (Val.dict sub) ∧
      sub.map Prod.fst = [("d", Val.str "z")].map Prod.fst ∧
      (∀ k2, k2 ∉ [("d", Val.str "z")].map Prod.fst →
        getK sub k2 = Option.none) ∧
      (∀ key2 fv, getK [("d", Val.str "z")] key2 = some fv →
        isDict fv = false →
        ∃ os, (getK [("sub", Val.dict [("c", Val.str "y")])] "sub").getD
            (Val.dict []) = Val.dict os ∧
          getK sub key2 = some (match getK os key2 with
            | some ud =>
                if pyEq ud ((getK (entriesDefault
                    [("c", Entry.leaf pC), ("d", Entry.leaf pD)]) key2).getD
                    Val.none)
                then fv else ud
            | Option.none => fv)) := by
  exact read_file_rebuilds_child_mapping sampleSchema
    [("sub", Val.dict [("c", Val.str "y")])]
    [("sub", Val.dict [("d", Val.str "z")])]
    [("sub", Val.dict [("d", Val.str "z")])]
    "sub" "Sub" Option.none [("c", Entry.leaf pC), ("d", Entry.leaf pD)]
    [("d", Val.str "z")]
    (by
      simp [readFile, handleDict, levelAttr, topAttr, nestedAttr, getK, setK,
        origGet, origGetOpt, handleProp, defaultFor, sampleSchema, pC, pD,
        mkProp, merge, dictUpdate, pyEq, entriesDefault, entryDefault,
        Except.map])
    (by simp) (by simp) rfl rfl

end Precept
